import Mathlib

/-!
Verification of the watermark-removal content-stream engine of the
PDFMaster repository (src/services/pdfUtils.ts).

The engine has two layers:

* `cleanContentStream` (pdfUtils.ts lines 129-189): a pipeline of five
  JavaScript regex rewrite rules applied to the decoded text of one PDF
  content stream.  Each rule is a global `String.replace`: the engine scans
  the subject left to right, at each position tries a head-anchored match,
  on success emits either nothing (deletion) or the matched text (a
  callback that decided to keep it) and resumes scanning right after the
  match, otherwise copies one character and advances.  We embed every rule
  as an explicit head-anchored matcher (`Chars → Option (Nat × Bool)`,
  returning the match length and whether the callback keeps the text) and
  one generic scanner `jsReplace` reproducing the global-replace loop.
  The lazy quantifiers of the source patterns (`[\s\S]*?KW`) are embedded
  as `findEndOfThen`: the first occurrence of the keyword whose
  continuation also matches, exactly the backtracking behaviour of a lazy
  gap.  Greedy pieces (`\s*`, `\s+`, `[\d.]+`, `[a-zA-Z0-9_]+`) are
  embedded as maximal runs; in every rule the character class of a greedy
  piece is disjoint from the first character of what follows it, so the
  maximal run is the unique backtracking-free reading of the pattern.
  `parseFloat` is embedded exactly over rationals (numerator/scale pair);
  the tolerance test |x| > 0.05 is the exact comparison 20*n > 10^k, which
  agrees with the double-precision comparison of the source on all
  operands whose decimal value is not within double rounding error of
  0.05.

* `removeWatermarks` (pdfUtils.ts lines 191-309): the document-level pass.
  We embed the shared-XObject classification (lines 206-251) over a small
  document model, and the per-stream codec adapter (lines 277-304) with
  the external collaborators (pako inflate/deflate, TextDecoder/Encoder)
  as explicit function parameters, so every theorem holds for the real
  codecs in particular.  `pako.inflate` may fail, hence
  `Option`; the other collaborators are total.
-/

abbrev Chars := List Char

/-- JavaScript `\s` (no `u` flag): ASCII whitespace plus the Unicode
space separators, as matched by the regexes in the source. -/
def isJsWs (c : Char) : Bool :=
  c = ' ' || c = '\t' || c = '\n' || c = '\r' || c.toNat = 11 || c.toNat = 12 ||
  c.toNat = 0xa0 || c.toNat = 0x1680 ||
  (0x2000 ≤ c.toNat && c.toNat ≤ 0x200a) ||
  c.toNat = 0x2028 || c.toNat = 0x2029 || c.toNat = 0x202f ||
  c.toNat = 0x205f || c.toNat = 0x3000 || c.toNat = 0xfeff

/-- Character class `[\d\.]` of the matrix-operand patterns. -/
def isNumChar (c : Char) : Bool := c.isDigit || c = '.'

/-- Character class `[a-zA-Z0-9_]` of the XObject-name pattern (rule 4). -/
def isNameChar (c : Char) : Bool := c.isAlpha || c.isDigit || c = '_'

/-- ASCII-only lowering: the case folding performed by a non-Unicode
JavaScript `i` flag on ASCII pattern letters. -/
def lowerAscii (c : Char) : Char :=
  if 'A' ≤ c ∧ c ≤ 'Z' then Char.ofNat (c.toNat + 32) else c

/-- Length of the maximal run of characters satisfying `p`, and the rest:
the reading of a greedy `p*` whose continuation starts outside `p`. -/
def spanLen (p : Char → Bool) : Chars → Nat × Chars
  | [] => (0, [])
  | c :: rest =>
    if p c then
      let r := spanLen p rest
      (r.1 + 1, r.2)
    else (0, c :: rest)

/-- Lazy gap `[\s\S]*?needle` followed by a continuation: returns the end
offset (relative to the subject) of the shortest gap such that `needle`
matches there and `cond` succeeds on what follows, i.e. the
leftmost-possible lazy match with backtracking into later occurrences of
`needle` when the continuation fails. -/
def findEndOfThen (needle : Chars) (cond : Chars → Option Nat) : Chars → Option Nat
  | [] =>
    if needle.isPrefixOf ([] : Chars) then
      (cond (List.drop needle.length [])).map (fun k => needle.length + k)
    else none
  | c :: rest =>
    if needle.isPrefixOf (c :: rest) then
      match cond ((c :: rest).drop needle.length) with
      | some k => some (needle.length + k)
      | none => (findEndOfThen needle cond rest).map (· + 1)
    else (findEndOfThen needle cond rest).map (· + 1)

/-- Lazy gap `[\s\S]*?needle` with no continuation: end offset of the
first occurrence of `needle`. -/
def findEnd (needle : Chars) (s : Chars) : Option Nat :=
  findEndOfThen needle (fun _ => some 0) s

/-- One JavaScript global regex replace where each match is either deleted
(callback returned the empty string) or kept verbatim (callback returned
the match).  The matcher is head-anchored: `some (len, keep)` means a
match of length `len` here.  Scanning resumes after the match either way;
on failure one character is copied.  The fuel argument is an upper bound
on the number of scanning steps (each step consumes at least one
character, so `s.length` suffices); it makes the recursion structural. -/
def jsReplaceF (m : Chars → Option (Nat × Bool)) : Nat → Chars → Chars
  | _, [] => []
  | 0, s => s
  | Nat.succ fuel, c :: rest =>
    match m (c :: rest) with
    | some (Nat.succ l, keep) =>
      (if keep then (c :: rest).take (l + 1) else []) ++ jsReplaceF m fuel (rest.drop l)
    | _ => c :: jsReplaceF m fuel rest

def jsReplace (m : Chars → Option (Nat × Bool)) (s : Chars) : Chars :=
  jsReplaceF m s.length s

/-! ### Literal fragments of the source patterns -/

def artifactLit : Chars := "/Artifact".toList
def watermarkLit : Chars := "/Watermark".toList
def bmcLit : Chars := "BMC".toList
def bdcLit : Chars := "BDC".toList
def emcLit : Chars := "EMC".toList
def btLit : Chars := "BT".toList
def etLit : Chars := "ET".toList
def tmLit : Chars := "Tm".toList
def cmLit : Chars := "cm".toList
def doLit : Chars := "Do".toList
def ltLit : Chars := "<<".toList
def gtLit : Chars := ">>".toList
def slashLit : Chars := "/".toList
def qUpperLit : Chars := "Q".toList
def hardikLit : Chars := "Hardik".toList
def kabraLit : Chars := "Kabra".toList

/-! ### Rule 1: marked-content blocks (pdfUtils.ts lines 133-136) -/

/-- Matcher for `/TAG\s*KW[\s\S]*?EMC` (TAG one of `/Artifact`,
`/Watermark`; KW one of `BMC`, `BDC`).  Always deletes. -/
def mTagged (tag kw : Chars) (s : Chars) : Option (Nat × Bool) :=
  if tag.isPrefixOf s then
    let r1 := s.drop tag.length
    let w := spanLen isJsWs r1
    if kw.isPrefixOf w.2 then
      (findEnd emcLit (w.2.drop kw.length)).map
        fun k => (tag.length + w.1 + kw.length + k, false)
    else none
  else none

/-- Continuation after the `>>` of the property-list form:
`\s*BDC[\s\S]*?EMC`. -/
def condPropTail (r : Chars) : Option Nat :=
  let w := spanLen isJsWs r
  if bdcLit.isPrefixOf w.2 then
    (findEnd emcLit (w.2.drop bdcLit.length)).map fun k => w.1 + bdcLit.length + k
  else none

/-- Matcher for `/Artifact\s*<<[\s\S]*?>>\s*BDC[\s\S]*?EMC`
(pdfUtils.ts line 138).  Always deletes. -/
def mArtifactProp (s : Chars) : Option (Nat × Bool) :=
  if artifactLit.isPrefixOf s then
    let r1 := s.drop artifactLit.length
    let w := spanLen isJsWs r1
    if ltLit.isPrefixOf w.2 then
      (findEndOfThen gtLit condPropTail (w.2.drop ltLit.length)).map
        fun k => (artifactLit.length + w.1 + ltLit.length + k, false)
    else none
  else none

/-! ### The numeric classifier (pdfUtils.ts lines 144-152, 161-163) -/

/-- One matrix operand `-?[\d\.]+` (greedy): match length, the captured
group text (sign included, exactly what the source hands to `parseFloat`),
and the rest. -/
def mNum (s : Chars) : Option (Nat × Chars × Chars) :=
  match s with
  | '-' :: r =>
    let a := spanLen isNumChar r
    if a.1 = 0 then none else some (a.1 + 1, '-' :: r.take a.1, a.2)
  | _ =>
    let a := spanLen isNumChar s
    if a.1 = 0 then none else some (a.1, s.take a.1, a.2)

/-- `-?[\d\.]+\s+`: one operand followed by mandatory whitespace. -/
def mNumWs (s : Chars) : Option (Nat × Chars × Chars) :=
  (mNum s).bind fun a =>
    let w := spanLen isJsWs a.2.2
    if w.1 = 0 then none else some (a.1 + w.1, a.2.1, w.2)

def digitVal (c : Char) : Nat := c.toNat - 48

def natOfDigits (ds : Chars) : Nat := ds.foldl (fun a c => a * 10 + digitVal c) 0

/-- JavaScript `parseFloat` restricted to the texts producible by
`-?[\d\.]+` with the sign stripped: the longest valid decimal-literal
prefix, as an exact pair (numerator, decimal scale); `none` is NaN.
`"5."` ↦ 5, `".5"` ↦ 0.5, `"1.2.3"` ↦ 1.2, `"."`/`".."` ↦ NaN. -/
def parseFloatPos (s : Chars) : Option (Nat × Nat) :=
  let d1 := spanLen Char.isDigit s
  match d1.2 with
  | '.' :: r2 =>
    let d2 := spanLen Char.isDigit r2
    if d1.1 = 0 ∧ d2.1 = 0 then none
    else some (natOfDigits (s.take d1.1 ++ r2.take d2.1), d2.1)
  | _ => if d1.1 = 0 then none else some (natOfDigits (s.take d1.1), 0)

/-- `parseFloat` of a full captured operand, absolute value
(the source only ever compares `Math.abs` of the result). -/
def parseFloatVal (s : Chars) : Option (Nat × Nat) :=
  match s with
  | '-' :: r => parseFloatPos r
  | _ => parseFloatPos s

/-- `Math.abs(parseFloat(text)) > 0.05`, with NaN comparing false, as in
the source.  `n / 10^k > 1/20  ↔  20*n > 10^k`. -/
def absGtTol (s : Chars) : Bool :=
  match parseFloatVal s with
  | none => false
  | some (n, k) => decide (10 ^ k < 20 * n)

/-- One match of the text-matrix pattern
`(-?[\d\.]+)\s+` ×6 `Tm` (pdfUtils.ts line 144), head-anchored: total
length and the second and third captured operands (`b` and `c`). -/
def mTmAt (s : Chars) : Option (Nat × Chars × Chars) :=
  (mNumWs s).bind fun a1 =>
  (mNumWs a1.2.2).bind fun a2 =>
  (mNumWs a2.2.2).bind fun a3 =>
  (mNumWs a3.2.2).bind fun a4 =>
  (mNumWs a4.2.2).bind fun a5 =>
  (mNumWs a5.2.2).bind fun a6 =>
  if tmLit.isPrefixOf a6.2.2 then
    some (a1.1 + a2.1 + a3.1 + a4.1 + a5.1 + a6.1 + tmLit.length, a2.2.1, a3.2.1)
  else none

/-- The `tmRegex.exec` loop of pdfUtils.ts lines 145-153: all successive
non-overlapping `Tm` matches of a block, left to right (fuel-structured
like `jsReplaceF`). -/
def tmMatchesF : Nat → Chars → List (Chars × Chars)
  | _, [] => []
  | 0, _ => []
  | Nat.succ fuel, c :: rest =>
    match mTmAt (c :: rest) with
    | some (Nat.succ l, b, cc) => (b, cc) :: tmMatchesF fuel (rest.drop l)
    | _ => tmMatchesF fuel rest

def tmMatches (s : Chars) : List (Chars × Chars) := tmMatchesF s.length s

/-- The rule-2 callback verdict: the block is deleted iff some `Tm` match
has `|b| > 0.05` or `|c| > 0.05` (the `while` loop returns `''` on the
first such match, which is the same as this disjunction). -/
def tmDirty (block : Chars) : Bool :=
  (tmMatches block).any fun p => absGtTol p.1 || absGtTol p.2

/-! ### Rule 2: `BT[\s\S]*?ET` with the Tm classifier (lines 142-155) -/

def mBTBlock (s : Chars) : Option (Nat × Bool) :=
  if btLit.isPrefixOf s then
    (findEnd etLit (s.drop btLit.length)).map
      fun k => (btLit.length + k, !tmDirty (s.take (btLit.length + k)))
  else none

/-! ### Rules 3 and 4: rotated `q ... cm ... Q` groups (lines 160-177) -/

/-- Common head `q\s+(-?[\d\.]+)\s+` ×6 `cm\s+` of rules 3 and 4:
consumed length, the `b` and `c` captures, and the rest. -/
def mQHead (s : Chars) : Option (Nat × Chars × Chars × Chars) :=
  match s with
  | c :: r =>
    if c = 'q' then
      let w0 := spanLen isJsWs r
      if w0.1 = 0 then none else
      (mNumWs w0.2).bind fun a1 =>
      (mNumWs a1.2.2).bind fun a2 =>
      (mNumWs a2.2.2).bind fun a3 =>
      (mNumWs a3.2.2).bind fun a4 =>
      (mNumWs a4.2.2).bind fun a5 =>
      (mNumWs a5.2.2).bind fun a6 =>
      if cmLit.isPrefixOf a6.2.2 then
        let r7 := a6.2.2.drop cmLit.length
        let w7 := spanLen isJsWs r7
        if w7.1 = 0 then none else
        some (1 + w0.1 + a1.1 + a2.1 + a3.1 + a4.1 + a5.1 + a6.1 + cmLit.length + w7.1,
              a2.2.1, a3.2.1, w7.2)
      else none
    else none
  | [] => none

/-- Rule 3 `q <matrix> cm [\s\S]*?BT[\s\S]*?ET[\s\S]*?Q`: kept iff the
`cm` matrix is not rotated. -/
def mQGroupText (s : Chars) : Option (Nat × Bool) :=
  (mQHead s).bind fun a =>
    (findEndOfThen btLit
        (fun r => findEndOfThen etLit (findEnd qUpperLit) r) a.2.2.2).map
      fun k => (a.1 + k, !(absGtTol a.2.1 || absGtTol a.2.2.1))

/-- Continuation after the `/` of rule 4:
`[a-zA-Z0-9_]+\s+Do\s+Q`. -/
def condNameDo (r : Chars) : Option Nat :=
  let a := spanLen isNameChar r
  if a.1 = 0 then none else
  let w1 := spanLen isJsWs a.2
  if w1.1 = 0 then none else
  if doLit.isPrefixOf w1.2 then
    let r3 := w1.2.drop doLit.length
    let w2 := spanLen isJsWs r3
    if w2.1 = 0 then none else
    match w2.2 with
    | c :: _ => if c = 'Q' then some (a.1 + w1.1 + doLit.length + w2.1 + 1) else none
    | [] => none
  else none

/-- Rule 4 `q <matrix> cm [\s\S]*?\/[a-zA-Z0-9_]+\s+Do\s+Q`. -/
def mQGroupDo (s : Chars) : Option (Nat × Bool) :=
  (mQHead s).bind fun a =>
    (findEndOfThen slashLit condNameDo a.2.2.2).map
      fun k => (a.1 + k, !(absGtTol a.2.1 || absGtTol a.2.2.1))

/-! ### Rule 5: the denylist (lines 180-186) -/

/-- Case-insensitive containment under the non-Unicode `i` flag. -/
def containsCI (sub t : Chars) : Bool :=
  (t.map lowerAscii).tails.any fun u => (sub.map lowerAscii).isPrefixOf u

/-- Matcher for `\(​[^\)]*SUB[^\)]*\)\s*Tj` (with `'('`/`')'`) and
`\[[^\]]*SUB[^\]]*\]\s*TJ` (with `'['`/`']'`), flags `gi`: the closing
delimiter is necessarily the first one after the opener (the inner class
excludes it), the gap must contain SUB case-insensitively, and the
trailing operator letters are matched case-insensitively.  Always
deletes. -/
def mDenyTj (sub : Chars) (openC closeC : Char) (s : Chars) : Option (Nat × Bool) :=
  match s with
  | [] => none
  | c :: r =>
    if c = openC then
      match List.findIdx? (fun x => x = closeC) r with
      | some k =>
        if containsCI sub (r.take k) then
          let r2 := r.drop (k + 1)
          let w := spanLen isJsWs r2
          match w.2 with
          | t1 :: t2 :: _ =>
            if lowerAscii t1 = 't' ∧ lowerAscii t2 = 'j' then
              some (1 + (k + 1) + w.1 + 2, false)
            else none
          | _ => none
        else none
      | none => none
    else none

/-! ### The rule pipeline (pdfUtils.ts lines 129-189) -/

/-- The twelve global replaces of `cleanContentStream`, in source order:
rules 1a-1e, rule 2, rule 3, rule 4, then for each denylist entry
(`Hardik` then `Kabra`) the `Tj` form then the `TJ` form. -/
def ruleMatchers : List (Chars → Option (Nat × Bool)) :=
  [mTagged artifactLit bmcLit, mTagged artifactLit bdcLit,
   mTagged watermarkLit bmcLit, mTagged watermarkLit bdcLit,
   mArtifactProp, mBTBlock, mQGroupText, mQGroupDo,
   mDenyTj hardikLit '(' ')', mDenyTj hardikLit '[' ']',
   mDenyTj kabraLit '(' ')', mDenyTj kabraLit '[' ']']

def applyRules (ms : List (Chars → Option (Nat × Bool))) (s : Chars) : Chars :=
  ms.foldl (fun acc m => jsReplace m acc) s

def cleanContentStream (s : Chars) : Chars := applyRules ruleMatchers s

/-! ### The per-stream codec adapter (pdfUtils.ts lines 277-304) -/

/-- A content stream object: raw payload bytes plus the `Filter` and
`Length` entries of its dictionary. -/
structure StreamObj where
  data : List Nat
  filterEntry : Option String
  lengthEntry : Nat
deriving DecidableEq, Repr

def flateName : String := "FlateDecode"

/-- Lines 292-300: decode the (already decompressed) bytes, clean, and on
a length change reattach the deflated cleaned text and force the
`Filter`/`Length` entries.  `deflate`/`encode` stand for `pako.deflate` /
`TextEncoder.encode`. -/
def rewriteStream (deflate : List Nat → List Nat) (encode : Chars → List Nat)
    (s : StreamObj) (contentStr : Chars) : StreamObj :=
  let cleanedStr := cleanContentStream contentStr
  if contentStr.length = cleanedStr.length then s
  else
    let newData := deflate (encode cleanedStr)
    { data := newData, filterEntry := some flateName, lengthEntry := newData.length }

/-- Lines 277-304, one stream: inflate only when the `Filter` entry is
`FlateDecode` (the `Array.isArray` disjunct of line 283 is never true of a
`PDFArray`); a failed inflate skips the stream (`continue`); any other or
absent filter is not treated as a failure — the raw bytes go straight to
the rewriter.  `inflate` stands for `pako.inflate` (`none` = throw),
`decode` for `TextDecoder.decode` (total, never throws). -/
def processStream (inflate : List Nat → Option (List Nat))
    (deflate : List Nat → List Nat) (decode : List Nat → Chars)
    (encode : Chars → List Nat) (s : StreamObj) : StreamObj :=
  if s.filterEntry = some flateName then
    match inflate s.data with
    | none => s
    | some d => rewriteStream deflate encode s (decode d)
  else rewriteStream deflate encode s (decode s.data)

/-- The per-page loop over `contentStreams`: each stream is processed
independently; a per-stream skip never aborts the rest (the function is
total and elementwise). -/
def processStreams (inflate : List Nat → Option (List Nat))
    (deflate : List Nat → List Nat) (decode : List Nat → Chars)
    (encode : Chars → List Nat) (L : List StreamObj) : List StreamObj :=
  L.map (processStream inflate deflate decode encode)

/-- The effective decoded text handed to the rewriter for a stream, when
one exists (mirrors the branching of `processStream`). -/
def decodedContent (inflate : List Nat → Option (List Nat))
    (decode : List Nat → Chars) (s : StreamObj) : Option Chars :=
  if s.filterEntry = some flateName then (inflate s.data).map decode
  else some (decode s.data)

/-! ### The shared-XObject sanitizer (pdfUtils.ts lines 206-251) -/

/-- A page's XObject resource dictionary: named slots holding object
references (`PDFRef`s, modelled by their object number; entries that are
not refs are neither counted nor deleted by the source, so they are left
out of the model). -/
structure PageRes where
  xobjects : List (String × Nat)
deriving DecidableEq, Repr

/-- The document: its pages and the subtype test of line 244
(`lookup(ref)` is a `PDFDict` whose `Subtype` is `Form`). -/
structure PdfDoc where
  pages : List PageRes
  isForm : Nat → Bool

def pageRefCount (p : PageRes) (r : Nat) : Nat :=
  (p.xobjects.filter fun e => e.2 == r).length

/-- Lines 207-219: the usage count of a reference is the number of
resource-dictionary entries over all pages that hold it (a page
referencing the same object under two names counts twice, as in the
source). -/
def xObjectUsage (d : PdfDoc) (r : Nat) : Nat :=
  (d.pages.map fun p => pageRefCount p r).sum

/-- Line 221: `pageCount > 2 ? Math.ceil(pageCount * 0.8) : 999`.
`Math.ceil(n * 0.8)` agrees with `⌈4n/5⌉ = (4n+4)/5` for every page
count representable without double rounding across an integer. -/
def sharedThreshold (pageCount : Nat) : Nat :=
  if pageCount > 2 then (4 * pageCount + 4) / 5 else 999

/-- Line 223: membership in `idsToRemove`. -/
def removedId (d : PdfDoc) (r : Nat) : Bool :=
  decide (sharedThreshold d.pages.length ≤ xObjectUsage d r)

/-- Lines 236-250: an entry is deleted when its ref is in `idsToRemove`,
or (else-branch) when the referenced object is a Form XObject. -/
def cleanPageXObjects (d : PdfDoc) (p : PageRes) : PageRes :=
  ⟨p.xobjects.filter fun e => !removedId d e.2 && !d.isForm e.2⟩

/-- The XObject-resource effect of `removeWatermarks` on every page
(`idsToRemove` is computed from the original document before the page
loop mutates anything, as in the source). -/
def removeWatermarksRes (d : PdfDoc) : List PageRes :=
  d.pages.map (cleanPageXObjects d)

/-! ### Decidable side conditions used in theorem statements -/

/-- `pat` occurs nowhere in `s` (at no suffix position). -/
def noInfix (pat s : Chars) : Bool :=
  s.tails.all fun t => !pat.isPrefixOf t

/-- The matcher fires at no position of `s`. -/
def allNone (m : Chars → Option (Nat × Bool)) (s : Chars) : Bool :=
  s.tails.all fun t => (m t).isNone

/-- A stream that is exactly one text block `BT <body> ET`. -/
def btBlock (body : Chars) : Chars :=
  'B' :: 'T' :: ' ' :: (body ++ (' ' :: 'E' :: 'T' :: []))

/-! ### Concrete inputs for the witnesses and counterexamples -/

def byteDec (bs : List Nat) : Chars := bs.map Char.ofNat
def byteEnc (cs : Chars) : List Nat := cs.map Char.toNat

/-- A 2-page document whose first page references object 7 (an image, not
a Form) under the name `Im1`. -/
def c1exDoc : PdfDoc := ⟨[⟨[("Im1", 7)]⟩, ⟨[]⟩], fun _ => false⟩

/-- A 3-page document referencing object 5 on every page. -/
def c1wDoc : PdfDoc := ⟨[⟨[("X0", 5)]⟩, ⟨[("X1", 5)]⟩, ⟨[("X2", 5)]⟩], fun _ => false⟩

/-- A stream declared `LZWDecode` whose raw bytes happen to decode to
artifact-tagged text. -/
def c2exStream : StreamObj :=
  ⟨byteEnc "/Artifact BMC x EMC".toList, some "LZWDecode", 19⟩

/-- A flate stream (payload irrelevant: inflation will fail). -/
def c2wStream : StreamObj := ⟨[3, 5], some flateName, 2⟩

def c2wList : List StreamObj := [c2wStream]

/-- An uncompressed stream whose text matches no rule. -/
def c3wStream : StreamObj := ⟨byteEnc "BT (ok) Tj ET".toList, none, 13⟩

def c4str : Chars := "/Artifact /Artifact BMC y EMC BMC z EMC".toList

def c5str : Chars := "q 0.7 0.7 -0.7 0.7 100 200 cm BT /F1 40 Tf (CONFIDENTIAL) Tj ET Q".toList

def c6exStr : Chars := "q 0.7 0.7 0 0.7 0 0 cm S Q BT (hello) Tj ET x Q".toList

def c6exBlock : Chars := "BT (hello) Tj ET".toList

def c6wBody : Chars := "(hello) Tj".toList

/-- An uncompressed stream tagged as a watermark layer (rewritten by
rule 1c). -/
def c7wStream : StreamObj := ⟨byteEnc "/Watermark BMC x EMC".toList, none, 20⟩

def c8str : Chars := "/Artifact BDC a /Span BDC b EMC c EMC".toList

def c9exStr : Chars := "BT 0 0.7.7 0.7.7 0 0 0 Tm ET".toList

def c9wBlock : Chars := "BT . . . . . . Tm ET".toList

def c4wStr : Chars := "hello".toList

/-! ## Generic properties of the global-replace scanner -/

theorem jsReplaceF_nil (m : Chars → Option (Nat × Bool)) (fuel : Nat) :
    jsReplaceF m fuel [] = [] := by
  cases fuel <;> rfl

theorem jsReplaceF_length_le (m : Chars → Option (Nat × Bool)) :
    ∀ (fuel : Nat) (s : Chars), (jsReplaceF m fuel s).length ≤ s.length := by
  intro fuel
  induction fuel with
  | zero => intro s; cases s <;> simp [jsReplaceF]
  | succ f ih =>
    intro s
    cases s with
    | nil => simp [jsReplaceF]
    | cons c rest =>
      rcases h : m (c :: rest) with _ | ⟨_ | l, keep⟩
      · simpa [jsReplaceF, h] using ih rest
      · simpa [jsReplaceF, h] using ih rest
      · have hrec := ih (rest.drop l)
        cases keep <;>
          simp only [jsReplaceF, h, List.length_append, List.length_take,
            List.length_drop, List.length_cons, if_true, if_false,
            Bool.false_eq_true, List.nil_append, ite_true, ite_false] at hrec ⊢ <;>
          omega

theorem jsReplaceF_eq_of_length_eq (m : Chars → Option (Nat × Bool)) :
    ∀ (fuel : Nat) (s : Chars),
      (jsReplaceF m fuel s).length = s.length → jsReplaceF m fuel s = s := by
  intro fuel
  induction fuel with
  | zero => intro s _; cases s <;> rfl
  | succ f ih =>
    intro s hlen
    cases s with
    | nil => rfl
    | cons c rest =>
      rcases h : m (c :: rest) with _ | ⟨_ | l, keep⟩
      · simp only [jsReplaceF, h, List.length_cons, Nat.add_right_cancel_iff] at hlen ⊢
        rw [ih rest hlen]
      · simp only [jsReplaceF, h, List.length_cons, Nat.add_right_cancel_iff] at hlen ⊢
        rw [ih rest hlen]
      · have hle := jsReplaceF_length_le m f (rest.drop l)
        cases keep with
        | false =>
          exfalso
          simp only [jsReplaceF, h, if_false, Bool.false_eq_true, List.nil_append,
            List.length_drop, List.length_cons, ite_false] at hlen hle
          omega
        | true =>
          simp only [jsReplaceF, h, ite_true, List.length_drop] at hlen hle ⊢
          by_cases hl : l ≤ rest.length
          · have hrec : (jsReplaceF m f (rest.drop l)).length = (rest.drop l).length := by
              simp only [List.length_append, List.length_take, List.length_cons,
                List.length_drop] at hlen ⊢
              omega
            rw [ih (rest.drop l) hrec, List.take_succ_cons]
            simp
          · have hdrop : rest.drop l = [] := List.drop_eq_nil_of_le (by omega)
            rw [hdrop, jsReplaceF_nil,
              List.take_of_length_le (l := c :: rest) (by simp; omega), List.append_nil]

theorem jsReplaceF_id_of_none (m : Chars → Option (Nat × Bool)) :
    ∀ (fuel : Nat) (s : Chars),
      (∀ t ∈ s.tails, m t = none) → jsReplaceF m fuel s = s := by
  intro fuel
  induction fuel with
  | zero => intro s _; cases s <;> rfl
  | succ f ih =>
    intro s hnone
    cases s with
    | nil => rfl
    | cons c rest =>
      have h0 : m (c :: rest) = none := by
        refine hnone _ ?_
        exact (List.mem_tails _ _).mpr (List.suffix_refl _)
      have hrest : ∀ t ∈ rest.tails, m t = none := by
        intro t ht
        refine hnone t ?_
        rw [List.mem_tails] at ht ⊢
        exact ht.trans (List.suffix_cons c rest)
      simp [jsReplaceF, h0, ih rest hrest]

theorem jsReplaceF_full_keep (m : Chars → Option (Nat × Bool)) (fuel : Nat)
    (s : Chars) (h : m s = some (s.length, true)) : jsReplaceF m fuel s = s := by
  cases fuel with
  | zero => cases s <;> rfl
  | succ f =>
    cases s with
    | nil => rfl
    | cons c rest =>
      simp only [List.length_cons] at h
      simp [jsReplaceF, h,
        List.take_of_length_le (le_of_eq (List.length_cons c rest)),
        List.drop_eq_nil_of_le (le_refl rest.length), jsReplaceF_nil]

theorem jsReplace_length_le (m : Chars → Option (Nat × Bool)) (s : Chars) :
    (jsReplace m s).length ≤ s.length :=
  jsReplaceF_length_le m s.length s

theorem jsReplace_eq_of_length_eq (m : Chars → Option (Nat × Bool)) (s : Chars)
    (h : (jsReplace m s).length = s.length) : jsReplace m s = s :=
  jsReplaceF_eq_of_length_eq m s.length s h

theorem jsReplace_id_of_none (m : Chars → Option (Nat × Bool)) (s : Chars)
    (h : ∀ t ∈ s.tails, m t = none) : jsReplace m s = s :=
  jsReplaceF_id_of_none m s.length s h

theorem jsReplace_full_keep (m : Chars → Option (Nat × Bool)) (s : Chars)
    (h : m s = some (s.length, true)) : jsReplace m s = s :=
  jsReplaceF_full_keep m s.length s h

/-! ## Generic properties of the rule pipeline -/

theorem applyRules_cons (m : Chars → Option (Nat × Bool))
    (ms : List (Chars → Option (Nat × Bool))) (s : Chars) :
    applyRules (m :: ms) s = applyRules ms (jsReplace m s) := rfl

theorem applyRules_length_le :
    ∀ (ms : List (Chars → Option (Nat × Bool))) (s : Chars),
      (applyRules ms s).length ≤ s.length := by
  intro ms
  induction ms with
  | nil => intro s; exact le_refl _
  | cons m ms ih =>
    intro s
    exact le_trans (ih (jsReplace m s)) (jsReplace_length_le m s)

theorem applyRules_eq_of_length_eq :
    ∀ (ms : List (Chars → Option (Nat × Bool))) (s : Chars),
      (applyRules ms s).length = s.length → applyRules ms s = s := by
  intro ms
  induction ms with
  | nil => intro s _; rfl
  | cons m ms ih =>
    intro s hlen
    rw [applyRules_cons] at hlen ⊢
    have h1 : (jsReplace m s).length = s.length := by
      have h2 := applyRules_length_le ms (jsReplace m s)
      have h3 := jsReplace_length_le m s
      omega
    rw [jsReplace_eq_of_length_eq m s h1] at hlen ⊢
    exact ih s hlen

theorem applyRules_id :
    ∀ (ms : List (Chars → Option (Nat × Bool))) (s : Chars),
      (∀ m ∈ ms, jsReplace m s = s) → applyRules ms s = s := by
  intro ms
  induction ms with
  | nil => intro s _; rfl
  | cons m ms ih =>
    intro s h
    rw [applyRules_cons, h m (List.mem_cons_self m ms)]
    exact ih s fun m' hm' => h m' (List.mem_cons_of_mem m hm')

theorem clean_length_le (s : Chars) :
    (cleanContentStream s).length ≤ s.length :=
  applyRules_length_le ruleMatchers s

theorem clean_eq_of_length_eq (s : Chars)
    (h : (cleanContentStream s).length = s.length) : cleanContentStream s = s :=
  applyRules_eq_of_length_eq ruleMatchers s h

/-! ## Bridging lemmas for the Boolean side conditions -/

theorem isPrefixOf_append_self (p t : Chars) : p.isPrefixOf (p ++ t) = true := by
  induction p with
  | nil => cases t <;> rfl
  | cons c p ih => simp [List.isPrefixOf, ih]

theorem noInfix_forall {pat s : Chars} (h : noInfix pat s = true) :
    ∀ t ∈ s.tails, pat.isPrefixOf t = false := by
  intro t ht
  have h2 := List.all_eq_true.mp h t ht
  simpa using h2

theorem allNone_forall {m : Chars → Option (Nat × Bool)} {s : Chars}
    (h : allNone m s = true) : ∀ t ∈ s.tails, m t = none := by
  intro t ht
  have h2 := List.all_eq_true.mp h t ht
  simpa [Option.isNone_iff_eq_none] using h2

/-! ## Suffix decompositions -/

theorem suffix_cons_cases {t : Chars} {c : Char} {l : Chars} (h : t <:+ c :: l) :
    t = c :: l ∨ t <:+ l := by
  obtain ⟨w, hw⟩ := h
  cases w with
  | nil => left; simpa using hw
  | cons a w' =>
    right
    refine ⟨w', ?_⟩
    rw [List.cons_append, List.cons.injEq] at hw
    exact hw.2

theorem suffix_concat_cases {t l : Chars} {x : Char} (h : t <:+ l ++ [x]) :
    t = [] ∨ ∃ u, u <:+ l ∧ t = u ++ [x] := by
  rcases List.eq_nil_or_concat t with rfl | ⟨t₀, y, rfl⟩
  · left; rfl
  · right
    obtain ⟨w, hw⟩ := h
    rw [List.concat_eq_append] at hw
    have h2 : (w ++ t₀) ++ [y] = l ++ [x] := by simpa [List.append_assoc] using hw
    have h3 := List.append_inj' h2 rfl
    have hyx : y = x := by
      have := h3.2
      rw [List.cons.injEq] at this
      exact this.1
    exact ⟨t₀, ⟨w, h3.1⟩, by rw [List.concat_eq_append, hyx]⟩

/-! ## Locating the terminating `ET` of a clean block -/

/-- If `n` starts at no non-trivial position of `u ++ n`, then the first
occurrence of `n` in `u ++ n` is the final one. -/
theorem findEnd_append (n : Chars) (hn : n ≠ []) :
    ∀ u : Chars, (∀ t ∈ u.tails, t ≠ [] → n.isPrefixOf (t ++ n) = false) →
      findEnd n (u ++ n) = some (u.length + n.length) := by
  intro u
  induction u with
  | nil =>
    intro _
    rw [List.nil_append]
    cases n with
    | nil => exact absurd rfl hn
    | cons c rest =>
      have hp : (c :: rest).isPrefixOf (c :: rest) = true := by
        have h2 := isPrefixOf_append_self (c :: rest) []
        rwa [List.append_nil] at h2
      simp [findEnd, findEndOfThen, hp]
  | cons a u ih =>
    intro h
    have hnp : n.isPrefixOf ((a :: u) ++ n) = false := by
      refine h (a :: u) ?_ (by simp)
      exact (List.mem_tails _ _).mpr (List.suffix_refl _)
    have hrest : ∀ t ∈ u.tails, t ≠ [] → n.isPrefixOf (t ++ n) = false := by
      intro t ht htne
      refine h t ?_ htne
      rw [List.mem_tails] at ht ⊢
      exact ht.trans (List.suffix_cons a u)
    have hu := ih hrest
    rw [List.cons_append]
    cases n with
    | nil => exact absurd rfl hn
    | cons c rest =>
      rw [List.cons_append] at hnp
      simp only [findEnd, findEndOfThen, hnp, Bool.false_eq_true, if_false]
      rw [findEnd] at hu
      rw [hu]
      simp only [Option.map_some']
      congr 1
      simp
      omega

/-- `ET` starting inside `t ++ "ET"` at a non-trivial position would
either straddle the boundary (impossible: the straddling character would
have to be both `T` and `E` or a space) or lie inside the body. -/
theorem straddle_of_noInfix (body : Chars) (h : noInfix etLit body = true) :
    ∀ t ∈ (' ' :: (body ++ [' '])).tails, t ≠ [] →
      etLit.isPrefixOf (t ++ etLit) = false := by
  intro t ht htne
  rw [List.mem_tails] at ht
  by_contra hpre
  rw [Bool.not_eq_false] at hpre
  cases t with
  | nil => exact htne rfl
  | cons a t1 =>
    cases t1 with
    | nil =>
      have h2 : etLit = ['E', 'T'] := rfl
      rw [h2] at hpre
      simp [List.isPrefixOf, List.cons_append] at hpre
    | cons b t2 =>
      have h2 : etLit = ['E', 'T'] := rfl
      rw [h2] at hpre
      simp only [List.cons_append, List.isPrefixOf, Bool.and_eq_true, beq_iff_eq] at hpre
      have hae : a = 'E' := hpre.1.symm
      have hbt : b = 'T' := hpre.2.1.symm
      subst hae
      subst hbt
      rcases suffix_cons_cases ht with he | ht2
      · rw [List.cons.injEq] at he
        exact absurd he.1 (by decide)
      · rcases suffix_concat_cases ht2 with heq | ⟨u, hu, hteq⟩
        · exact List.cons_ne_nil _ _ heq
        · cases u with
          | nil =>
            rw [List.nil_append, List.cons.injEq] at hteq
            exact absurd hteq.1 (by decide)
          | cons x u1 =>
            cases u1 with
            | nil =>
              rw [List.cons_append, List.nil_append, List.cons.injEq,
                List.cons.injEq] at hteq
              exact absurd hteq.2.1 (by decide)
            | cons y u2 =>
              rw [List.cons_append, List.cons_append, List.cons.injEq,
                List.cons.injEq] at hteq
              obtain ⟨hx, hy, -⟩ := hteq
              have hocc : etLit.isPrefixOf (x :: y :: u2) = true := by
                rw [← hx, ← hy]
                exact isPrefixOf_append_self etLit u2
              have hno := noInfix_forall h (x :: y :: u2)
                ((List.mem_tails _ _).mpr hu)
              rw [hocc] at hno
              exact Bool.true_eq_false.mp hno

/-- On a stream that is exactly one text block, rule 2 matches the whole
stream at position 0 and classifies it by its own `Tm` operators. -/
theorem mBTBlock_btBlock (body : Chars)
    (hstr : ∀ t ∈ (' ' :: (body ++ [' '])).tails, t ≠ [] →
      etLit.isPrefixOf (t ++ etLit) = false) :
    mBTBlock (btBlock body) = some ((btBlock body).length, !tmDirty (btBlock body)) := by
  have hpre : btLit.isPrefixOf (btBlock body) = true :=
    isPrefixOf_append_self btLit (' ' :: (body ++ (' ' :: 'E' :: 'T' :: [])))
  have hdrop : (btBlock body).drop btLit.length = (' ' :: (body ++ [' '])) ++ etLit := by
    show ' ' :: (body ++ (' ' :: 'E' :: 'T' :: [])) =
      (' ' :: (body ++ [' '])) ++ etLit
    have h2 : etLit = ['E', 'T'] := rfl
    rw [h2, List.cons_append, List.append_assoc]
    rfl
  have hfe := findEnd_append etLit (by decide) (' ' :: (body ++ [' '])) hstr
  have hlen : btLit.length + ((' ' :: (body ++ [' '])).length + etLit.length) =
      (btBlock body).length := by
    simp [btBlock, btLit, etLit]
    omega
  simp only [mBTBlock, hpre, if_true, hdrop, hfe, Option.map_some']
  rw [hlen, List.take_length]

/-! ## Matchers that cannot fire -/

theorem mTagged_none {tag kw t : Chars} (h : tag.isPrefixOf t = false) :
    mTagged tag kw t = none := by
  simp [mTagged, h]

theorem mArtifactProp_none {t : Chars} (h : artifactLit.isPrefixOf t = false) :
    mArtifactProp t = none := by
  simp [mArtifactProp, h]

/-- Codec adapter parameters used by the concrete witnesses: an inflate
that always fails, an identity deflate, and byte/char coding. -/
def inflateNone : List Nat → Option (List Nat) := fun _ => none

def deflateId : List Nat → List Nat := id

/-! ## The claims -/

/-- C1 (counterexample): the claim predicts that in a document with at
most 2 pages an XObject referenced from at least 1 page is deleted from
every referencing page's XObject dictionary.  In `c1exDoc` (2 pages,
object 7 referenced once, not a Form) the entry survives: the small-
document branch of line 221 sets the threshold to 999, not to 1. -/
theorem c1_small_doc_counterexample :
    c1exDoc.pages.length ≤ 2 ∧ 1 ≤ xObjectUsage c1exDoc 7 ∧
      (removeWatermarksRes c1exDoc)[0]? = some ⟨[("Im1", 7)]⟩ := by
  decide

/-- C1 (amended): an XObject whose reference count reaches the shared
threshold — `⌈pageCount * 0.8⌉` for documents of more than 2 pages, 999
(i.e. unreachable) for documents of at most 2 pages — is deleted from the
XObject resource dictionary of every page. -/
theorem c1_shared_xobject_removal (d : PdfDoc) (r : Nat)
    (h : sharedThreshold d.pages.length ≤ xObjectUsage d r) :
    ∀ p ∈ removeWatermarksRes d, ∀ k, (k, r) ∉ p.xobjects := by
  intro p hp k hk
  rw [removeWatermarksRes, List.mem_map] at hp
  obtain ⟨q, hq, rfl⟩ := hp
  rw [cleanPageXObjects] at hk
  have h2 := List.of_mem_filter hk
  simp only [Bool.and_eq_true, Bool.not_eq_true'] at h2
  have h3 : removedId d r = true := by
    rw [removedId]
    exact decide_eq_true h
  have h4 : removedId d r = false := h2.1
  rw [h4] at h3
  exact Bool.false_ne_true h3

theorem c1_shared_xobject_removal_witness :
    sharedThreshold c1wDoc.pages.length ≤ xObjectUsage c1wDoc 5 ∧
      ∀ p ∈ removeWatermarksRes c1wDoc, ∀ k, (k, 5) ∉ p.xobjects :=
  ⟨by decide, c1_shared_xobject_removal c1wDoc 5 (by decide)⟩

/-- C2 (counterexample): the claim predicts that a stream with a filter
other than deflate is left unmodified.  The source only special-cases
`FlateDecode`; any other filter's raw bytes are fed to the rewriter as
text, and when a rule fires the stream is rewritten: `c2exStream`
(filter `LZWDecode`, bytes spelling an artifact block) is mutated. -/
theorem c2_nonflate_counterexample :
    c2exStream.filterEntry ≠ some flateName ∧
      processStream inflateNone deflateId byteDec byteEnc c2exStream ≠ c2exStream := by
  decide

/-- C2 (amended): a `FlateDecode` stream whose payload fails to inflate
is left untouched (bytes and dictionary entries unmodified), the
remaining streams are still processed (the pass is elementwise and
total), and the failure never escapes. -/
theorem c2_inflate_failure_skips (inflate : List Nat → Option (List Nat))
    (deflate : List Nat → List Nat) (decode : List Nat → Chars)
    (encode : Chars → List Nat) (L : List StreamObj) (i : Nat) (hi : i < L.length)
    (hf : (L.get ⟨i, hi⟩).filterEntry = some flateName)
    (he : inflate (L.get ⟨i, hi⟩).data = none) :
    (processStreams inflate deflate decode encode L)[i]? = some (L.get ⟨i, hi⟩) := by
  have hstep : processStream inflate deflate decode encode L[i] = L[i] := by
    have hf2 : L[i].filterEntry = some flateName := hf
    have he2 : inflate L[i].data = none := he
    simp [processStream, hf2, he2]
  rw [processStreams, List.getElem?_map, List.getElem?_eq_getElem hi,
    Option.map_some', hstep]
  rfl

theorem c2_inflate_failure_skips_witness :
    c2wStream.filterEntry = some flateName ∧ inflateNone c2wStream.data = none ∧
      (processStreams inflateNone deflateId byteDec byteEnc c2wList)[0]? =
        some c2wStream :=
  ⟨rfl, rfl,
    c2_inflate_failure_skips inflateNone deflateId byteDec byteEnc c2wList 0
      (by decide) rfl rfl⟩

/-- C3 (confirmed): a stream whose decoded text is returned by the
rewriter at the same length is left exactly as in the input: same bytes,
same `Filter`, same `Length` — no recompression happens. -/
theorem c3_unchanged_stream_identity (inflate : List Nat → Option (List Nat))
    (deflate : List Nat → List Nat) (decode : List Nat → Chars)
    (encode : Chars → List Nat) (s : StreamObj) (t : Chars)
    (hdec : decodedContent inflate decode s = some t)
    (hlen : (cleanContentStream t).length = t.length) :
    processStream inflate deflate decode encode s = s := by
  by_cases hf : s.filterEntry = some flateName
  · rw [decodedContent, if_pos hf] at hdec
    cases hd : inflate s.data with
    | none => rw [hd] at hdec; simp at hdec
    | some d =>
      rw [hd, Option.map_some', Option.some.injEq] at hdec
      subst hdec
      simp only [processStream, hf, if_true, hd, rewriteStream]
      rw [if_pos hlen.symm]
  · rw [decodedContent, if_neg hf, Option.some.injEq] at hdec
    subst hdec
    simp only [processStream, hf, if_false, rewriteStream]
    rw [if_pos hlen.symm]

theorem c3_unchanged_stream_identity_witness :
    decodedContent inflateNone byteDec c3wStream = some ("BT (ok) Tj ET".toList) ∧
      processStream inflateNone deflateId byteDec byteEnc c3wStream = c3wStream :=
  ⟨by decide,
    c3_unchanged_stream_identity inflateNone deflateId byteDec byteEnc c3wStream
      ("BT (ok) Tj ET".toList) (by decide) (by decide)⟩

/-- C4 (counterexample): the rewriter is not idempotent.  Cleaning
`c4str` once deletes the artifact block reachable from the second
`/Artifact`, which moves the first `/Artifact` next to the remaining
`BMC ... EMC`; a second pass then deletes the rest. -/
theorem c4_idempotence_counterexample :
    cleanContentStream (cleanContentStream c4str) ≠ cleanContentStream c4str := by
  decide

/-- C4 (amended): the rewriter is idempotent on its fixed points: if a
pass removes nothing (output length equal to input length), a second pass
removes nothing either. -/
theorem c4_idempotent_on_fixed_points (s : Chars)
    (h : (cleanContentStream s).length = s.length) :
    cleanContentStream (cleanContentStream s) = cleanContentStream s := by
  have h2 := clean_eq_of_length_eq s h
  rw [h2]
  exact h2

theorem c4_idempotent_on_fixed_points_witness :
    (cleanContentStream c4wStr).length = c4wStr.length ∧
      cleanContentStream (cleanContentStream c4wStr) = cleanContentStream c4wStr :=
  ⟨by decide, c4_idempotent_on_fixed_points c4wStr (by decide)⟩

/-- C5 (confirmed): the spec's rotated-group stream is removed in its
entirety: the `cm` matrix has |b| = |c| = 0.7 > 0.05, so rule 3 deletes
the whole `q ... Q` group, leaving the empty stream. -/
theorem c5_rotated_group_removed : cleanContentStream c5str = [] := by
  decide

/-- C6 (counterexample): the claim predicts that an axis-aligned
`BT ... ET` block outside any artifact region and containing no
denylisted substring is never deleted.  In `c6exStr` the block
`BT (hello) Tj ET` satisfies all of that (no `Tm` at all, no denylist
hit), yet rule 3 swallows it: a rotated `q ... cm` group closed before
the block still matches `q <matrix> cm [\s\S]*?BT[\s\S]*?ET[\s\S]*?Q`
because of the lazy gaps, and the whole span — innocent block included —
is deleted. -/
theorem c6_conservative_counterexample :
    tmDirty c6exBlock = false ∧ containsCI hardikLit c6exBlock = false ∧
      containsCI kabraLit c6exBlock = false ∧ cleanContentStream c6exStr = [] := by
  decide

/-- C6 (amended): a stream that consists of a single text block
`BT body ET` is kept unchanged provided no artifact/watermark tag occurs
in it, the body contains no `ET`, its `Tm` operators are all classified
axis-aligned, and the rotated-group and denylist matchers fire nowhere in
it. -/
theorem c6_axis_aligned_block_kept (body : Chars)
    (hArt : noInfix artifactLit (btBlock body) = true)
    (hWm : noInfix watermarkLit (btBlock body) = true)
    (hET : noInfix etLit body = true)
    (hTm : tmDirty (btBlock body) = false)
    (hQ3 : allNone mQGroupText (btBlock body) = true)
    (hQ4 : allNone mQGroupDo (btBlock body) = true)
    (hD1 : allNone (mDenyTj hardikLit '(' ')') (btBlock body) = true)
    (hD2 : allNone (mDenyTj hardikLit '[' ']') (btBlock body) = true)
    (hD3 : allNone (mDenyTj kabraLit '(' ')') (btBlock body) = true)
    (hD4 : allNone (mDenyTj kabraLit '[' ']') (btBlock body) = true) :
    cleanContentStream (btBlock body) = btBlock body := by
  have hArtF := noInfix_forall hArt
  have hWmF := noInfix_forall hWm
  apply applyRules_id
  intro m hm
  simp only [ruleMatchers, List.mem_cons, List.not_mem_nil, or_false] at hm
  rcases hm with rfl | rfl | rfl | rfl | rfl | rfl | rfl | rfl | rfl | rfl | rfl | rfl
  · exact jsReplace_id_of_none _ _ fun t ht => mTagged_none (hArtF t ht)
  · exact jsReplace_id_of_none _ _ fun t ht => mTagged_none (hArtF t ht)
  · exact jsReplace_id_of_none _ _ fun t ht => mTagged_none (hWmF t ht)
  · exact jsReplace_id_of_none _ _ fun t ht => mTagged_none (hWmF t ht)
  · exact jsReplace_id_of_none _ _ fun t ht => mArtifactProp_none (hArtF t ht)
  · apply jsReplace_full_keep
    rw [mBTBlock_btBlock body (straddle_of_noInfix body hET), hTm]
    rfl
  · exact jsReplace_id_of_none _ _ (allNone_forall hQ3)
  · exact jsReplace_id_of_none _ _ (allNone_forall hQ4)
  · exact jsReplace_id_of_none _ _ (allNone_forall hD1)
  · exact jsReplace_id_of_none _ _ (allNone_forall hD2)
  · exact jsReplace_id_of_none _ _ (allNone_forall hD3)
  · exact jsReplace_id_of_none _ _ (allNone_forall hD4)

theorem c6_axis_aligned_block_kept_witness :
    cleanContentStream (btBlock c6wBody) = btBlock c6wBody :=
  c6_axis_aligned_block_kept c6wBody (by decide) (by decide) (by decide) (by decide)
    (by decide) (by decide) (by decide) (by decide) (by decide) (by decide)

/-- C7 (confirmed): whenever the rewriter reports a change (the decoded
text cleans to a different length), the stream is reattached with the
deflate of the encoded cleaned text, its `Filter` entry is forced to
`FlateDecode` whatever the input filter was, and its `Length` entry is
the byte count of the new payload. -/
theorem c7_recompress_metadata (inflate : List Nat → Option (List Nat))
    (deflate : List Nat → List Nat) (decode : List Nat → Chars)
    (encode : Chars → List Nat) (s : StreamObj) (t : Chars)
    (hdec : decodedContent inflate decode s = some t)
    (hch : (cleanContentStream t).length ≠ t.length) :
    processStream inflate deflate decode encode s =
      { data := deflate (encode (cleanContentStream t)),
        filterEntry := some flateName,
        lengthEntry := (deflate (encode (cleanContentStream t))).length } := by
  have hne : ¬ t.length = (cleanContentStream t).length := fun hc => hch hc.symm
  by_cases hf : s.filterEntry = some flateName
  · rw [decodedContent, if_pos hf] at hdec
    cases hd : inflate s.data with
    | none => rw [hd] at hdec; simp at hdec
    | some d =>
      rw [hd, Option.map_some', Option.some.injEq] at hdec
      subst hdec
      simp only [processStream, hf, if_true, hd, rewriteStream]
      rw [if_neg hne]
  · rw [decodedContent, if_neg hf, Option.some.injEq] at hdec
    subst hdec
    simp only [processStream, hf, if_false, rewriteStream]
    rw [if_neg hne]

theorem c7_recompress_metadata_witness :
    decodedContent inflateNone byteDec c7wStream =
        some ("/Watermark BMC x EMC".toList) ∧
      processStream inflateNone deflateId byteDec byteEnc c7wStream =
        { data := deflateId (byteEnc (cleanContentStream ("/Watermark BMC x EMC".toList))),
          filterEntry := some flateName,
          lengthEntry :=
            (deflateId (byteEnc (cleanContentStream ("/Watermark BMC x EMC".toList)))).length } :=
  ⟨by decide,
    c7_recompress_metadata inflateNone deflateId byteDec byteEnc c7wStream
      ("/Watermark BMC x EMC".toList) (by decide) (by decide)⟩

/-- C8 (counterexample): the claim predicts that a nested
`BDC ... EMC` pair inside an artifact region does not stop the deletion
before the outer `EMC`, i.e. that `c8str` is deleted entirely.  The lazy
`[\s\S]*?EMC` stops at the first `EMC`, so text remains. -/
theorem c8_nested_counterexample : cleanContentStream c8str ≠ [] := by
  decide

/-- C8 (amended): region deletion extends exactly to the first `EMC`
after the start keyword, nested re-entries notwithstanding: the tail
` c EMC` of `c8str` (everything after the first `EMC`) survives. -/
theorem c8_first_emc_terminates : cleanContentStream c8str = " c EMC".toList := by
  decide

/-- C9 (counterexample): the claim predicts that operands that are
malformed under the PDF numeric grammar (e.g. several decimal points)
never classify a region as dirty.  `parseFloat` keeps the longest valid
prefix, so `0.7.7` evaluates to 0.7 > 0.05 and the block of `c9exStr` is
deleted. -/
theorem c9_malformed_counterexample :
    absGtTol ("0.7.7".toList) = true ∧ cleanContentStream c9exStr ≠ c9exStr := by
  decide

/-- C9 (amended): operands on which `parseFloat` yields NaN (no parseable
prefix at all, e.g. `.` or `-.`) never classify: a block all of whose
`Tm` operand pairs parse to NaN is classified clean, and no error is
raised (the classifier is total). -/
theorem c9_nan_operands_not_dirty (block : Chars)
    (h : ∀ p ∈ tmMatches block, parseFloatVal p.1 = none ∧ parseFloatVal p.2 = none) :
    tmDirty block = false := by
  rw [tmDirty, List.any_eq_false]
  intro p hp
  obtain ⟨h1, h2⟩ := h p hp
  simp [absGtTol, h1, h2]

theorem c9_nan_operands_not_dirty_witness :
    (∀ p ∈ tmMatches c9wBlock,
        parseFloatVal p.1 = none ∧ parseFloatVal p.2 = none) ∧
      tmDirty c9wBlock = false :=
  ⟨by decide, c9_nan_operands_not_dirty c9wBlock (by decide)⟩

/-- C10 (confirmed): the rewriter never lengthens its input, and its
output has the input's length exactly when it is the input — so the
length comparison of line 295 is an exact dirty check and recompression
is skipped precisely when nothing was removed. -/
theorem c10_never_lengthens (s : Chars) :
    (cleanContentStream s).length ≤ s.length ∧
      ((cleanContentStream s).length = s.length ↔ cleanContentStream s = s) :=
  ⟨clean_length_le s, ⟨clean_eq_of_length_eq s, fun h => by rw [h]⟩⟩
